import Mathlib

/-!
Verification of the file-classification pipeline: confidence scoring,
classifier result assembly, batch orchestration, response parsing,
collision-safe relocation, the category store, and preview extraction.
Each definition is a shallow embedding of the corresponding function in
the repository's source; Python `str` values become `String`/`List Char`,
Python floats become `ℚ`, and SQLite tables become in-memory row lists.
-/

namespace PM

/-! ### Shared helpers: Python string/list primitives -/

/-- Prefix test on character lists (Python `s.startswith(pat)`). -/
def prefOf : List Char → List Char → Bool
  | [], _ => true
  | _ :: _, [] => false
  | a :: as, b :: bs => a = b && prefOf as bs

/-- Substring containment on character lists (Python `pat in s`). -/
def containsSeq (pat : List Char) : List Char → Bool
  | [] => pat.isEmpty
  | c :: rest => prefOf pat (c :: rest) || containsSeq pat rest

/-- Index of the first occurrence of a character (Python `s.find(c)`,
with `none` standing for the `-1` not-found result). -/
def firstIdx (c : Char) : List Char → Option Nat
  | [] => none
  | x :: rest =>
    if x = c then some 0
    else (firstIdx c rest).map (· + 1)

/-- Index of the last occurrence of a character (Python `s.rindex(c)`,
with `none` standing for the raised `ValueError`). -/
def rfindIdx (c : Char) : List Char → Option Nat
  | [] => none
  | x :: rest =>
    match rfindIdx c rest with
    | some i => some (i + 1)
    | none => if x = c then some 0 else none

/-- Association-list lookup (Python `d[k]` / `k in d`). -/
def lookupA {β : Type} (k : String) : List (String × β) → Option β
  | [] => none
  | (k', v) :: rest => if k' = k then some v else lookupA k rest

/-- Python dict assignment `d[k] = v`: replaces the value in place when
the key is present, appends at the end otherwise. -/
def insertA {β : Type} (k : String) (v : β) : List (String × β) → List (String × β)
  | [] => [(k, v)]
  | (k', v') :: rest =>
    if k' = k then (k', v) :: rest else (k', v') :: insertA k v rest

/-- One input file record, restricted to the fields the classifier's
result-assembly loop reads (src/src/core/ai_classifier.py). -/
structure FileInfo where
  name : String
  absolute_path : String
deriving DecidableEq

/-- One value of the parsed remote-response mapping, with the two fields
classify_files reads from it. -/
structure ParsedEntry where
  target_folder : String
  reason : String
deriving DecidableEq

/-- One classification result dict as built by classify_files. -/
structure CResult where
  target_folder : String
  reason : String
  confidence : ℚ
deriving DecidableEq

namespace AIClassifier

/-- Confidence heuristic of `AIClassifier._calculate_confidence`
(src/src/core/ai_classifier.py): base 0.5, bonuses added only when the
reason text is non-empty, then capped at 1.0. -/
def calculate_confidence (reason : String) : ℚ :=
  let confidence : ℚ := 5/10
  let confidence :=
    if reason.data ≠ [] then
      let c := confidence
      let c := if 50 < reason.data.length then c + 2/10 else c
      let c := if containsSeq "因为".data reason.data || containsSeq "基于".data reason.data then
          c + 1/10 else c
      let c := if containsSeq "特征".data reason.data || containsSeq "类型".data reason.data then
          c + 1/10 else c
      let c := if containsSeq "确定".data reason.data || containsSeq "明确".data reason.data then
          c + 1/10 else c
      c
    else confidence
  min confidence 1

/-- Modelled from the spec's words for comparison with the source's
heuristic: start at 0.5; +0.2 if the reason exceeds 50 characters;
+0.1 for causal-language markers; +0.1 for file characteristic/type
references; +0.1 for certainty markers; clamp the result to [0, 1]. -/
def spec_confidence (reason : String) : ℚ :=
  let sum : ℚ := 5/10
    + (if 50 < reason.data.length then 2/10 else 0)
    + (if containsSeq "因为".data reason.data || containsSeq "基于".data reason.data then
        (1 : ℚ)/10 else 0)
    + (if containsSeq "特征".data reason.data || containsSeq "类型".data reason.data then
        (1 : ℚ)/10 else 0)
    + (if containsSeq "确定".data reason.data || containsSeq "明确".data reason.data then
        (1 : ℚ)/10 else 0)
  max 0 (min 1 sum)

/-- Result built by classify_files for one input file: the parsed
response entry under the file's name when present (with the locally
computed confidence), the synthesized unclassified fallback otherwise. -/
def resultFor (parsed : List (String × ParsedEntry)) (fi : FileInfo) : CResult :=
  match lookupA fi.name parsed with
  | some e => ⟨e.target_folder, e.reason, calculate_confidence e.reason⟩
  | none => ⟨"未分类", "无法确定合适的分类", 0⟩

/-- Result-assembly loop of `AIClassifier.classify_files`: iterates the
input records and fills the results dict keyed by absolute path. -/
def classify_files_results (files_info : List FileInfo)
    (parsed : List (String × ParsedEntry)) : List (String × CResult) :=
  files_info.foldl (fun acc fi => insertA fi.absolute_path (resultFor parsed fi) acc) []

end AIClassifier

namespace FileMover

/-- Decimal digits of a number, least significant first; the second
argument is fuel so that the definition is structural. -/
def digitsAux : Nat → Nat → List Nat
  | _, 0 => []
  | 0, _ + 1 => []
  | n + 1, fuel + 1 => (n + 1) % 10 :: digitsAux ((n + 1) / 10) fuel

/-- Decimal digits of a number, least significant first. -/
def decDigits (n : Nat) : List Nat := digitsAux n n

/-- Value of a little-endian decimal digit list. -/
def ofDigits : List Nat → Nat
  | [] => 0
  | d :: ds => d + 10 * ofDigits ds

/-- Character for one decimal digit. -/
def digitChar : Nat → Char
  | 0 => '0'
  | 1 => '1'
  | 2 => '2'
  | 3 => '3'
  | 4 => '4'
  | 5 => '5'
  | 6 => '6'
  | 7 => '7'
  | 8 => '8'
  | _ => '9'

/-- Python str(n) for a natural number (decimal rendering). -/
def natRepr (n : Nat) : String :=
  if n = 0 then "0" else ⟨((decDigits n).map digitChar).reverse⟩

/-- os.path.splitext restricted to plain file names: split before the
last dot, unless every character before that dot is itself a dot. -/
def splitExt (name : String) : String × String :=
  match rfindIdx '.' name.data with
  | none => (name, "")
  | some d =>
    if (name.data.take d).any (fun c => c ≠ '.') then
      (⟨name.data.take d⟩, ⟨name.data.drop d⟩)
    else (name, "")

/-- os.path.basename with '/' as the separator. -/
def basename (p : String) : String :=
  match rfindIdx '/' p.data with
  | none => p
  | some i => ⟨p.data.drop (i + 1)⟩

/-- Collision candidate name built by move_file's while loop,
Python f-string base_counter ext. -/
def candidate (base ext : String) (k : Nat) : String :=
  base ++ "_" ++ natRepr k ++ ext

/-- The while loop of FileMover.move_file: starting at counter k,
return the first candidate name not present in the target directory.
The fuel argument only bounds the recursion; callers pass enough fuel
that it never runs out. -/
def findFree (existing : List String) (base ext : String) : Nat → Nat → String
  | k, 0 => candidate base ext k
  | k, fuel + 1 =>
    if candidate base ext k ∈ existing then findFree existing base ext (k + 1) fuel
    else candidate base ext k

/-- Destination name chosen by FileMover.move_file given the entries of
the target directory: the target name itself when free, otherwise the
first free suffixed candidate _1, _2, ... -/
def resolveTargetName (existing : List String) (target_name : String) : String :=
  if target_name ∈ existing then
    let be := splitExt target_name
    findFree existing be.1 be.2 1 (existing.length + 1)
  else target_name

/-- FileMover.move_file (src/src/core/file_mover.py) on a target
directory modelled as its list of entry names: returns the written name
and the directory contents after the move. -/
def move_file (existing : List String) (source : String) (new_name : Option String) :
    String × List String :=
  let target_name := match new_name with
    | some n => n
    | none => basename source
  let written := resolveTargetName existing target_name
  (written, written :: existing)

end FileMover

namespace BatchThread

/-- Slice loop of ClassificationThread.run (src/src/ui/main_window.py):
the contiguous batches enhanced_info[i:i+10] for i in range(0, total, 10),
one classifier call per batch. Fuel keeps the recursion structural;
callers pass the list length, which always suffices. -/
def batchesAux {α : Type} : Nat → List α → List (List α)
  | 0, _ => []
  | _ + 1, [] => []
  | fuel + 1, x :: xs => (x :: xs).take 10 :: batchesAux fuel ((x :: xs).drop 10)

/-- The sequence of batches submitted to the classifier for one run. -/
def batches {α : Type} (l : List α) : List (List α) := batchesAux l.length l

/-- Progress emissions of ClassificationThread.run: after each batch,
min(100, int((i + len(batch)) / total_files * 100)) with done = i the
count of files processed before the batch. -/
def progressAux {α : Type} (total : Nat) : Nat → Nat → List α → List Nat
  | 0, _, _ => []
  | _ + 1, _, [] => []
  | fuel + 1, done, x :: xs =>
    min 100 ((done + ((x :: xs).take 10).length) * 100 / total) ::
      progressAux total fuel (done + ((x :: xs).take 10).length) ((x :: xs).drop 10)

/-- The progress values emitted over one run, in order. -/
def progressEvents {α : Type} (l : List α) : List Nat := progressAux l.length l.length 0 l

end BatchThread

/-- The opening-brace character. -/
def lbrace : Char := '\x7b'

/-- The closing-brace character. -/
def rbrace : Char := '\x7d'

/-- Failure of classify_files's response-parsing stage: the raised
format error message together with the raw response text emitted to the
error log for diagnostics. -/
structure FormatError where
  message : String
  raw : String
deriving DecidableEq

namespace AIClassifier

/-- Response-parsing stage of classify_files: locate the first opening
brace and the last closing brace of the raw text and hand exactly the
enclosed substring to the JSON parser (abstracted as an oracle); when a
brace is missing or the parse fails, fail with a format error carrying
the raw text. Python's rindex ValueError for a missing closing brace is
caught by the same except clause as the parse failure. -/
def parse_response {J : Type} (jsonParse : String → Option J) (raw : String) :
    Except FormatError J :=
  match firstIdx lbrace raw.data, rfindIdx rbrace raw.data with
  | some s, some e =>
    match jsonParse ⟨(raw.data.drop s).take (e + 1 - s)⟩ with
    | some j => Except.ok j
    | none => Except.error ⟨"AI响应格式错误", raw⟩
  | _, _ => Except.error ⟨"AI响应格式错误", raw⟩

/-- The three-character ellipsis marker appended by preview truncation. -/
def ellipsis : List Char := "...".data

/-- AIClassifier._extract_content_preview: the argument models the
outcome of opening and decoding the file — none is an open/decode
failure, some full the decoded character stream, of which f.read
returns the first max_length characters. When the buffer is full the
text is cut before its last space and an ellipsis is appended; a
missing space makes rindex raise, and the except clause turns any
failure into None. -/
def extract_content_preview (content? : Option (List Char)) (max_length : Nat := 1000) :
    Option (List Char) :=
  match content? with
  | none => none
  | some full =>
    if (full.take max_length).length = max_length then
      match rfindIdx ' ' (full.take max_length) with
      | some i => some ((full.take max_length).take i ++ ellipsis)
      | none => none
    else some (full.take max_length)

/-- Preview enrichment step of AIClassifier.enhance_files_info for one
file: only text files are read, and the content_preview field is set
only when extraction returns a truthy (non-empty) string. -/
def enhance_preview_field (is_text : Bool) (content? : Option (List Char)) :
    Option (List Char) :=
  if is_text then
    match extract_content_preview content? with
    | some pv => if pv.isEmpty then none else some pv
    | none => none
  else none

end AIClassifier

/-- Per-file outcome of the post-classification handling (directory
creation and move) in ClassificationThread.run
(src/src/core/classification_thread.py): the move succeeded, the move
returned False, or an exception was raised and caught. -/
inductive FileOutcome where
  | moved
  | moveFailed
  | raised (msg : String)
deriving DecidableEq

/-- Result dict value as seen by the post-processing loop: the three
classification fields plus the error annotation set on move failure. -/
structure PResult where
  target_folder : String
  reason : String
  confidence : ℚ
  error : Option String
deriving DecidableEq

namespace ClassificationThread

/-- The synthesized processing-error result installed when handling a
file raises. -/
def errorResult (msg : String) : PResult :=
  ⟨"错误", "处理出错: " ++ msg, 0, none⟩

/-- One iteration of the post-classification loop for file path p: the
file is skipped when it has no classification result; otherwise the
move is attempted and the aggregate annotated or overwritten according
to the outcome, with a raised exception caught and converted. -/
def processOne (outcome : String → FileOutcome) (results : List (String × PResult))
    (p : String) : List (String × PResult) :=
  match lookupA p results with
  | none => results
  | some r =>
    match outcome p with
    | FileOutcome.moved => results
    | FileOutcome.moveFailed => insertA p { r with error := some "文件移动失败" } results
    | FileOutcome.raised msg => insertA p (errorResult msg) results

/-- The post-classification loop of ClassificationThread.run followed
by its terminal emission: every file is handled in order and the
finished event carrying the full aggregate fires (an error event would
be Except.error; per-file exceptions never produce one). -/
def run_post (outcome : String → FileOutcome) (results : List (String × PResult))
    (files : List String) : Except String (List (String × PResult)) :=
  Except.ok (files.foldl (processOne outcome) results)

end ClassificationThread

/-- One row of the categories table. -/
structure CatRow where
  rowId : Nat
  name : String
deriving DecidableEq

/-- One row of the file_categories table. -/
structure FCRow where
  rowId : Nat
  file_path : String
  category_id : Nat
  confidence : ℚ
deriving DecidableEq

/-- One row of the category_history table. -/
structure HRow where
  rowId : Nat
  file_path : String
  category_id : Nat
  action : String
deriving DecidableEq

/-- The category database of CategoryStorage
(src/src/core/category_storage.py): the three tables, rows in rowid
order, plus the next autoincrement ids. -/
structure DB where
  categories : List CatRow
  file_categories : List FCRow
  history : List HRow
  next_cat : Nat
  next_fc : Nat
  next_h : Nat
deriving DecidableEq

namespace CategoryStorage

/-- A freshly initialized database. -/
def emptyDB : DB := ⟨[], [], [], 1, 1, 1⟩

/-- First categories row with a given name (SELECT ... WHERE name = ?). -/
def findCat (name : String) : List CatRow → Option CatRow
  | [] => none
  | r :: rest => if r.name = name then some r else findCat name rest

/-- First categories row with a given id (the JOIN ... ON ... = c.id). -/
def findCatById (cid : Nat) : List CatRow → Option CatRow
  | [] => none
  | r :: rest => if r.rowId = cid then some r else findCatById cid rest

/-- SELECT id FROM categories WHERE name = ?. -/
def catIdOf (db : DB) (name : String) : Option Nat :=
  (findCat name db.categories).map (fun r => r.rowId)

/-- CategoryStorage.add_category: INSERT OR IGNORE a new category row,
returning whether a row was inserted. -/
def add_category (db : DB) (name : String) : DB × Bool :=
  match findCat name db.categories with
  | some _ => (db, false)
  | none =>
    ({ db with
       categories := db.categories ++ [⟨db.next_cat, name⟩],
       next_cat := db.next_cat + 1 }, true)

/-- CategoryStorage.add_file_category: ensure the category exists, look
up its id, INSERT OR REPLACE the (file, category) assignment — SQLite
deletes the conflicting row and appends a fresh-rowid row — and append
an add history row, all in one transaction. -/
def add_file_category (db : DB) (file_path : String) (category_name : String)
    (confidence : ℚ) : DB :=
  let db1 := (add_category db category_name).1
  match catIdOf db1 category_name with
  | none => db1
  | some cid =>
    { db1 with
      file_categories :=
        (db1.file_categories.filter
          (fun r => !decide (r.file_path = file_path ∧ r.category_id = cid))) ++
          [⟨db1.next_fc, file_path, cid, confidence⟩],
      next_fc := db1.next_fc + 1,
      history := db1.history ++ [⟨db1.next_h, file_path, cid, "add"⟩],
      next_h := db1.next_h + 1 }

/-- Descending-confidence comparison used by the ORDER BY of
get_file_categories. -/
def byConfDesc (a b : String × ℚ) : Prop := b.2 ≤ a.2

instance : DecidableRel byConfDesc :=
  fun a b => inferInstanceAs (Decidable (b.2 ≤ a.2))

instance : IsTotal (String × ℚ) byConfDesc :=
  ⟨fun a b => le_total b.2 a.2⟩

instance : IsTrans (String × ℚ) byConfDesc :=
  ⟨fun _ _ _ h1 h2 => le_trans h2 h1⟩

/-- CategoryStorage.get_file_categories: the file's assignment rows
joined with their category names, ordered by descending confidence. -/
def get_file_categories (db : DB) (file_path : String) : List (String × ℚ) :=
  List.insertionSort byConfDesc
    ((db.file_categories.filter (fun r => decide (r.file_path = file_path))).filterMap
      (fun r => (findCatById r.category_id db.categories).map (fun c => (c.name, r.confidence))))

/-- CategoryStorage.remove_file_category: when the category name exists,
delete the assignment rows for the (file, category) pair and append a
remove history row, returning True; otherwise return False unchanged. -/
def remove_file_category (db : DB) (file_path : String) (category_name : String) :
    DB × Bool :=
  match catIdOf db category_name with
  | none => (db, false)
  | some cid =>
    ({ db with
       file_categories := db.file_categories.filter
         (fun r => !decide (r.file_path = file_path ∧ r.category_id = cid)),
       history := db.history ++ [⟨db.next_h, file_path, cid, "remove"⟩],
       next_h := db.next_h + 1 }, true)

/-- CategoryStorage.get_files_by_category: paths of the assignment rows
whose category row carries the given name, ordered by file path. -/
def get_files_by_category (db : DB) (category_name : String) : List String :=
  List.insertionSort (· ≤ ·)
    ((db.file_categories.filter (fun r =>
        match findCatById r.category_id db.categories with
        | some c => decide (c.name = category_name)
        | none => false)).map (fun r => r.file_path))

/-- Structural invariant maintained by CategoryStorage: category names
and rowids are unique, and rowids stay below the autoincrement cursor. -/
def WF (db : DB) : Prop :=
  (db.categories.map (fun r => r.name)).Nodup ∧
  (db.categories.map (fun r => r.rowId)).Nodup ∧
  (∀ r ∈ db.categories, r.rowId < db.next_cat)

instance (db : DB) : Decidable (WF db) :=
  inferInstanceAs (Decidable (_ ∧ _ ∧ _))

end CategoryStorage

/-! ### Theorems -/

theorem insertA_of_not_mem_keys {β : Type} (k : String) (v : β) :
    ∀ l : List (String × β), k ∉ l.map Prod.fst → insertA k v l = l ++ [(k, v)]
  | [], _ => rfl
  | (k', v') :: rest, h => by
    have hk : k' ≠ k := by
      intro e; exact h (by simp [e])
    simp only [insertA, if_neg hk]
    rw [insertA_of_not_mem_keys k v rest (fun hm => h (by simp [hm]))]
    simp

theorem lookupA_append_left {β : Type} (k : String) (l₁ l₂ : List (String × β))
    (h : k ∈ l₁.map Prod.fst) : lookupA k (l₁ ++ l₂) = lookupA k l₁ := by
  induction l₁ with
  | nil => simp at h
  | cons p rest ih =>
    by_cases hk : p.1 = k
    · simp [lookupA, hk]
    · have : k ∈ rest.map Prod.fst := by
        rcases List.mem_map.1 h with ⟨q, hq, he⟩
        rcases List.mem_cons.1 hq with rfl | hq'
        · exact absurd he hk
        · exact List.mem_map.2 ⟨q, hq', he⟩
      simp [lookupA, hk, ih this]

theorem lookupA_map_self (g : FileInfo → CResult) (fi : FileInfo) :
    ∀ l : List FileInfo, (l.map (·.absolute_path)).Nodup → fi ∈ l →
      lookupA fi.absolute_path (l.map (fun x => (x.absolute_path, g x))) = some (g fi)
  | [], _, hm => by simp at hm
  | x :: rest, hnd, hm => by
    rcases List.mem_cons.1 hm with rfl | hm'
    · simp [lookupA]
    · have hx : x.absolute_path ≠ fi.absolute_path := by
        intro e
        have : fi.absolute_path ∈ rest.map (·.absolute_path) :=
          List.mem_map.2 ⟨fi, hm', rfl⟩
        rw [← e] at this
        exact (List.nodup_cons.1 hnd).1 this
      simp only [List.map_cons, lookupA, if_neg hx]
      exact lookupA_map_self g fi rest (List.nodup_cons.1 hnd).2 hm'

theorem classify_foldl_eq (parsed : List (String × ParsedEntry)) :
    ∀ (l : List FileInfo) (acc : List (String × CResult)),
      (l.map (·.absolute_path)).Nodup →
      (∀ p ∈ l, p.absolute_path ∉ acc.map Prod.fst) →
      l.foldl (fun acc fi =>
          insertA fi.absolute_path (AIClassifier.resultFor parsed fi) acc) acc =
        acc ++ l.map (fun fi => (fi.absolute_path, AIClassifier.resultFor parsed fi))
  | [], acc, _, _ => by simp
  | x :: rest, acc, hnd, hdisj => by
    simp only [List.foldl_cons]
    rw [insertA_of_not_mem_keys _ _ acc (hdisj x (by simp))]
    rw [classify_foldl_eq parsed rest (acc ++ [(x.absolute_path, AIClassifier.resultFor parsed x)])
      (List.nodup_cons.1 hnd).2 ?_]
    · simp
    · intro p hp
      simp only [List.map_append, List.mem_append]
      rintro (hmem | hmem)
      · exact hdisj p (by simp [hp]) hmem
      · simp only [List.map_cons, List.map_nil, List.mem_singleton] at hmem
        have : p.absolute_path ∈ rest.map (·.absolute_path) :=
          List.mem_map.2 ⟨p, hp, rfl⟩
        rw [hmem] at this
        exact (List.nodup_cons.1 hnd).1 this

/-- C1: the mapping returned by classify_files has exactly one result per
input file's absolute path; a file whose name is a key of the parsed
response gets that entry's target folder and reason, and a file whose
name is absent gets the synthesized result with target folder 未分类
(Unclassified), confidence 0.0 and the fixed reason string. -/
theorem c1_classify_total_coverage (files_info : List FileInfo)
    (parsed : List (String × ParsedEntry))
    (hnd : (files_info.map (·.absolute_path)).Nodup) :
    (AIClassifier.classify_files_results files_info parsed).map Prod.fst =
        files_info.map (·.absolute_path) ∧
    (∀ fi ∈ files_info, ∀ e, lookupA fi.name parsed = some e →
        lookupA fi.absolute_path (AIClassifier.classify_files_results files_info parsed) =
          some ⟨e.target_folder, e.reason, AIClassifier.calculate_confidence e.reason⟩) ∧
    (∀ fi ∈ files_info, lookupA fi.name parsed = none →
        lookupA fi.absolute_path (AIClassifier.classify_files_results files_info parsed) =
          some ⟨"未分类", "无法确定合适的分类", 0⟩) := by
  have hrw : AIClassifier.classify_files_results files_info parsed =
      files_info.map (fun fi => (fi.absolute_path, AIClassifier.resultFor parsed fi)) := by
    have := classify_foldl_eq parsed files_info [] hnd (by simp)
    simpa [AIClassifier.classify_files_results] using this
  refine ⟨by rw [hrw]; simp, ?_, ?_⟩
  · intro fi hfi e he
    rw [hrw, lookupA_map_self _ fi files_info hnd hfi]
    simp [AIClassifier.resultFor, he]
  · intro fi hfi he
    rw [hrw, lookupA_map_self _ fi files_info hnd hfi]
    simp [AIClassifier.resultFor, he]

/-- Witness for C1 at a concrete two-file batch whose parsed response
covers only the first file. -/
theorem c1_classify_total_coverage_witness :
    (AIClassifier.classify_files_results
        [⟨"a.txt", "/src/a.txt"⟩, ⟨"b.txt", "/src/b.txt"⟩]
        [("a.txt", ⟨"文档", "因为内容相关"⟩)]).map Prod.fst =
      ["/src/a.txt", "/src/b.txt"] ∧
    lookupA "/src/b.txt"
        (AIClassifier.classify_files_results
          [⟨"a.txt", "/src/a.txt"⟩, ⟨"b.txt", "/src/b.txt"⟩]
          [("a.txt", ⟨"文档", "因为内容相关"⟩)]) =
      some ⟨"未分类", "无法确定合适的分类", 0⟩ := by
  have h := c1_classify_total_coverage
    [⟨"a.txt", "/src/a.txt"⟩, ⟨"b.txt", "/src/b.txt"⟩]
    [("a.txt", ⟨"文档", "因为内容相关"⟩)] (by decide)
  refine ⟨h.1.trans (by rfl), ?_⟩
  exact h.2.2 ⟨"b.txt", "/src/b.txt"⟩ (by simp) (by rfl)

theorem ofDigits_digitsAux : ∀ fuel n, n ≤ fuel →
    FileMover.ofDigits (FileMover.digitsAux n fuel) = n
  | 0, n, h => by
    have hn : n = 0 := Nat.le_zero.1 h
    simp [hn, FileMover.digitsAux, FileMover.ofDigits]
  | fuel + 1, 0, _ => by simp [FileMover.digitsAux, FileMover.ofDigits]
  | fuel + 1, n + 1, h => by
    have hlt : (n + 1) / 10 < n + 1 := Nat.div_lt_self (Nat.succ_pos n) (by norm_num)
    have hle : (n + 1) / 10 ≤ fuel := by omega
    simp only [FileMover.digitsAux, FileMover.ofDigits,
      ofDigits_digitsAux fuel ((n + 1) / 10) hle]
    exact Nat.mod_add_div (n + 1) 10

theorem digitsAux_lt_ten : ∀ fuel n, ∀ d ∈ FileMover.digitsAux n fuel, d < 10
  | 0, n => by simp [FileMover.digitsAux]
  | fuel + 1, 0 => by simp [FileMover.digitsAux]
  | fuel + 1, n + 1 => by
    intro d hd
    simp only [FileMover.digitsAux, List.mem_cons] at hd
    rcases hd with rfl | hd
    · exact Nat.mod_lt _ (by norm_num)
    · exact digitsAux_lt_ten fuel ((n + 1) / 10) d hd

theorem decDigits_inj {m n : Nat} (h : FileMover.decDigits m = FileMover.decDigits n) :
    m = n := by
  have hm := ofDigits_digitsAux m m le_rfl
  have hn := ofDigits_digitsAux n n le_rfl
  rw [← hm, ← hn]
  unfold FileMover.decDigits at h
  rw [h]

theorem digitChar_inj_lt :
    ∀ d, d < 10 → ∀ e, e < 10 → FileMover.digitChar d = FileMover.digitChar e → d = e := by
  decide

theorem map_digitChar_inj :
    ∀ l₁ l₂ : List Nat, (∀ d ∈ l₁, d < 10) → (∀ d ∈ l₂, d < 10) →
      l₁.map FileMover.digitChar = l₂.map FileMover.digitChar → l₁ = l₂
  | [], [], _, _, _ => rfl
  | [], _ :: _, _, _, h => by simp at h
  | _ :: _, [], _, _, h => by simp at h
  | a :: l₁, b :: l₂, h₁, h₂, h => by
    simp only [List.map_cons, List.cons.injEq] at h
    have hab : a = b :=
      digitChar_inj_lt a (h₁ a (by simp)) b (h₂ b (by simp)) h.1
    rw [hab, map_digitChar_inj l₁ l₂ (fun d hd => h₁ d (by simp [hd]))
      (fun d hd => h₂ d (by simp [hd])) h.2]

theorem natRepr_inj : Function.Injective FileMover.natRepr := by
  intro m n h
  unfold FileMover.natRepr at h
  by_cases hm : m = 0 <;> by_cases hn : n = 0
  · rw [hm, hn]
  · exfalso
    rw [if_pos hm, if_neg hn] at h
    have hd := congrArg String.data h
    have hrev : (FileMover.decDigits n).map FileMover.digitChar = ['0'] := by
      have : ((FileMover.decDigits n).map FileMover.digitChar).reverse = ['0'] := hd.symm
      have := congrArg List.reverse this
      simpa using this
    rcases hds : FileMover.decDigits n with _ | ⟨d, ds⟩
    · rw [hds] at hrev; simp at hrev
    · rw [hds] at hrev
      simp only [List.map_cons, List.cons.injEq] at hrev
      have hds2 : ds = [] := by
        have := hrev.2
        simpa using this
      have hd0 : d = 0 := by
        have hdlt : d < 10 := digitsAux_lt_ten n n d (by rw [← FileMover.decDigits, hds]; simp)
        exact digitChar_inj_lt d hdlt 0 (by norm_num) (by simpa using hrev.1)
      have : n = 0 := by
        have := ofDigits_digitsAux n n le_rfl
        rw [show FileMover.digitsAux n n = FileMover.decDigits n from rfl, hds, hds2, hd0] at this
        simpa [FileMover.ofDigits] using this.symm
      exact hn this
  · exfalso
    rw [if_neg hm, if_pos hn] at h
    have hd := congrArg String.data h
    have hrev : (FileMover.decDigits m).map FileMover.digitChar = ['0'] := by
      have : ((FileMover.decDigits m).map FileMover.digitChar).reverse = ['0'] := hd
      have := congrArg List.reverse this
      simpa using this
    rcases hds : FileMover.decDigits m with _ | ⟨d, ds⟩
    · rw [hds] at hrev; simp at hrev
    · rw [hds] at hrev
      simp only [List.map_cons, List.cons.injEq] at hrev
      have hds2 : ds = [] := by
        have := hrev.2
        simpa using this
      have hd0 : d = 0 := by
        have hdlt : d < 10 := digitsAux_lt_ten m m d (by rw [← FileMover.decDigits, hds]; simp)
        exact digitChar_inj_lt d hdlt 0 (by norm_num) (by simpa using hrev.1)
      have : m = 0 := by
        have := ofDigits_digitsAux m m le_rfl
        rw [show FileMover.digitsAux m m = FileMover.decDigits m from rfl, hds, hds2, hd0] at this
        simpa [FileMover.ofDigits] using this.symm
      exact hm this
  · rw [if_neg hm, if_neg hn] at h
    have hd := congrArg String.data h
    simp only at hd
    have := congrArg List.reverse hd
    simp only [List.reverse_reverse] at this
    exact decDigits_inj (map_digitChar_inj _ _
      (digitsAux_lt_ten m m) (digitsAux_lt_ten n n) this)

theorem strData_append (s t : String) : (s ++ t).data = s.data ++ t.data := by
  cases s; cases t; rfl

theorem candidate_inj (base ext : String) {j k : Nat}
    (h : FileMover.candidate base ext j = FileMover.candidate base ext k) : j = k := by
  unfold FileMover.candidate at h
  have hd := congrArg String.data h
  simp only [strData_append] at hd
  have h2 := List.append_cancel_right hd
  have h3 := List.append_cancel_left h2
  exact natRepr_inj (String.ext h3)

theorem findFree_avoids (existing : List String) (base ext : String) :
    ∀ fuel k,
      (∃ j, k ≤ j ∧ j < k + fuel + 1 ∧ FileMover.candidate base ext j ∉ existing) →
      FileMover.findFree existing base ext k fuel ∉ existing
  | 0, k, ⟨j, hkj, hlt, hfree⟩ => by
    have hj : j = k := by omega
    rw [hj] at hfree
    simpa [FileMover.findFree] using hfree
  | fuel + 1, k, h => by
    by_cases hc : FileMover.candidate base ext k ∈ existing
    · simp only [FileMover.findFree, if_pos hc]
      apply findFree_avoids existing base ext fuel (k + 1)
      rcases h with ⟨j, hkj, hlt, hfree⟩
      rcases Nat.eq_or_lt_of_le hkj with rfl | hlt2
      · exact absurd hc hfree
      · exact ⟨j, by omega, by omega, hfree⟩
    · simp only [FileMover.findFree, if_neg hc]
      exact hc

theorem exists_free_candidate (existing : List String) (base ext : String) :
    ∃ j, 1 ≤ j ∧ j < 1 + (existing.length + 1) + 1 ∧
      FileMover.candidate base ext j ∉ existing := by
  by_contra hall
  push_neg at hall
  have hnd : ((List.range (existing.length + 1)).map
      (fun i => FileMover.candidate base ext (i + 1))).Nodup := by
    refine List.Nodup.map ?_ (List.nodup_range _)
    intro a b hab
    have := candidate_inj base ext hab
    omega
  have hsub : ((List.range (existing.length + 1)).map
      (fun i => FileMover.candidate base ext (i + 1))) ⊆ existing := by
    intro x hx
    rcases List.mem_map.1 hx with ⟨i, hi, rfl⟩
    have hi' := List.mem_range.1 hi
    exact hall (i + 1) (by omega) (by omega)
  have hlen := (List.subperm_of_subset hnd hsub).length_le
  simp only [List.length_map, List.length_range] at hlen
  omega

/-- C3: FileMover.move_file never overwrites an existing entry — the
written name is always absent from the target directory beforehand, and
the directory afterwards still holds every prior entry; in particular
moving a.txt into a directory already holding a.txt writes a_1.txt, and
doing so again writes a_2.txt. -/
theorem c3_move_never_overwrites :
    (∀ (existing : List String) (source : String) (new_name : Option String),
      (FileMover.move_file existing source new_name).1 ∉ existing ∧
      (FileMover.move_file existing source new_name).2 =
        (FileMover.move_file existing source new_name).1 :: existing) ∧
    FileMover.move_file ["a.txt"] "a.txt" none = ("a_1.txt", ["a_1.txt", "a.txt"]) ∧
    FileMover.move_file ["a_1.txt", "a.txt"] "a.txt" none =
      ("a_2.txt", ["a_2.txt", "a_1.txt", "a.txt"]) := by
  refine ⟨?_, by decide, by decide⟩
  intro existing source new_name
  refine ⟨?_, rfl⟩
  show FileMover.resolveTargetName existing _ ∉ existing
  unfold FileMover.resolveTargetName
  set tn := (match new_name with
    | some n => n
    | none => FileMover.basename source) with htn
  by_cases hmem : tn ∈ existing
  · rw [if_pos hmem]
    exact findFree_avoids existing (FileMover.splitExt tn).1 (FileMover.splitExt tn).2
      (existing.length + 1) 1
      (exists_free_candidate existing (FileMover.splitExt tn).1 (FileMover.splitExt tn).2)
  · rw [if_neg hmem]
    exact hmem

theorem batchesAux_join {α : Type} : ∀ fuel (l : List α), l.length ≤ fuel →
    (BatchThread.batchesAux fuel l).flatten = l
  | 0, l, h => by
    have : l = [] := List.eq_nil_of_length_eq_zero (Nat.le_zero.1 h)
    simp [this, BatchThread.batchesAux]
  | fuel + 1, [], _ => rfl
  | fuel + 1, x :: xs, h => by
    simp only [BatchThread.batchesAux, List.flatten_cons]
    rw [batchesAux_join fuel (((x :: xs)).drop 10) (by simp at h ⊢; omega)]
    exact List.take_append_drop 10 (x :: xs)

theorem batchesAux_length {α : Type} : ∀ fuel (l : List α), l.length ≤ fuel →
    (BatchThread.batchesAux fuel l).length = (l.length + 9) / 10
  | 0, l, h => by
    have : l = [] := List.eq_nil_of_length_eq_zero (Nat.le_zero.1 h)
    simp [this, BatchThread.batchesAux]
  | fuel + 1, [], _ => by simp [BatchThread.batchesAux]
  | fuel + 1, x :: xs, h => by
    simp only [BatchThread.batchesAux, List.length_cons]
    rw [batchesAux_length fuel (((x :: xs)).drop 10) (by simp at h ⊢; omega)]
    simp only [List.length_drop, List.length_cons]
    omega

theorem batchesAux_size {α : Type} : ∀ fuel (l : List α),
    ∀ b ∈ BatchThread.batchesAux fuel l, b.length ≤ 10
  | 0, l => by simp [BatchThread.batchesAux]
  | fuel + 1, [] => by simp [BatchThread.batchesAux]
  | fuel + 1, x :: xs => by
    intro b hb
    simp only [BatchThread.batchesAux, List.mem_cons] at hb
    rcases hb with rfl | hb
    · simp [List.length_take]
    · exact batchesAux_size fuel _ b hb

theorem progressAux_get {α : Type} (total : Nat) :
    ∀ fuel (l : List α) done i (h : i < (BatchThread.progressAux total fuel done l).length),
      (BatchThread.progressAux total fuel done l).get ⟨i, h⟩ =
        min 100 ((done +
          (((BatchThread.batchesAux fuel l).take (i + 1)).map List.length).sum) * 100 / total)
  | 0, l, done, i, h => by simp [BatchThread.progressAux] at h
  | fuel + 1, [], done, i, h => by simp [BatchThread.progressAux] at h
  | fuel + 1, x :: xs, done, 0, h => by
    simp [BatchThread.progressAux, BatchThread.batchesAux]
  | fuel + 1, x :: xs, done, i + 1, h => by
    simp only [BatchThread.progressAux, List.get_cons_succ]
    rw [progressAux_get total fuel ((x :: xs).drop 10) (done + ((x :: xs).take 10).length) i
      (by simpa [BatchThread.progressAux] using h)]
    simp only [BatchThread.batchesAux, List.take_succ_cons, List.map_cons, List.sum_cons]
    congr 2
    omega

theorem progressAux_length {α : Type} (total : Nat) :
    ∀ fuel (l : List α) done,
      (BatchThread.progressAux total fuel done l).length =
        (BatchThread.batchesAux fuel l).length
  | 0, l, done => by simp [BatchThread.progressAux, BatchThread.batchesAux]
  | fuel + 1, [], done => by simp [BatchThread.progressAux, BatchThread.batchesAux]
  | fuel + 1, x :: xs, done => by
    simp only [BatchThread.progressAux, BatchThread.batchesAux, List.length_cons]
    rw [progressAux_length total fuel _ _]

/-- C4: one run iterates over the contiguous ten-element slices of the
input (their concatenation is the input, each has at most ten elements,
and the classifier is invoked once per slice, i.e. ceil(n/10) times);
the i-th emitted progress value is floor(files processed so far / total
× 100); and for 25 input files there are exactly 3 classifier calls of
sizes 10, 10, 5 with progress emissions 40, 80, 100 — reaching 100 only
after the third call. -/
theorem c4_batching_and_progress {α : Type} (l : List α) :
    (BatchThread.batches l).flatten = l ∧
    (BatchThread.batches l).length = (l.length + 9) / 10 ∧
    (∀ b ∈ BatchThread.batches l, b.length ≤ 10) ∧
    (BatchThread.progressEvents l).length = (BatchThread.batches l).length ∧
    (∀ i (h : i < (BatchThread.progressEvents l).length),
      (BatchThread.progressEvents l).get ⟨i, h⟩ =
        (((BatchThread.batches l).take (i + 1)).map List.length).sum * 100 / l.length) ∧
    (BatchThread.batches (List.range 25)).map List.length = [10, 10, 5] ∧
    BatchThread.progressEvents (List.range 25) = [40, 80, 100] := by
  refine ⟨batchesAux_join l.length l le_rfl, batchesAux_length l.length l le_rfl,
    batchesAux_size l.length l, progressAux_length l.length l.length l 0,
    ?_, by decide, by decide⟩
  intro i h
  simp only [BatchThread.batches]
  show (BatchThread.progressAux l.length l.length 0 l).get ⟨i, h⟩ = _
  rw [progressAux_get l.length l.length l 0 i h]
  have hsum : (((BatchThread.batchesAux l.length l).take (i + 1)).map List.length).sum ≤
      l.length := by
    have hjoin := batchesAux_join l.length l le_rfl
    have hsplit : (BatchThread.batchesAux l.length l).take (i + 1) ++
        (BatchThread.batchesAux l.length l).drop (i + 1) = BatchThread.batchesAux l.length l :=
      List.take_append_drop _ _
    have : ((BatchThread.batchesAux l.length l).map List.length).sum = l.length := by
      rw [← List.length_flatten, hjoin]
    calc (((BatchThread.batchesAux l.length l).take (i + 1)).map List.length).sum
        ≤ (((BatchThread.batchesAux l.length l).take (i + 1)).map List.length).sum +
          (((BatchThread.batchesAux l.length l).drop (i + 1)).map List.length).sum :=
          Nat.le_add_right _ _
      _ = ((BatchThread.batchesAux l.length l).map List.length).sum := by
          rw [← List.sum_append, ← List.map_append, hsplit]
      _ = l.length := this
  rcases Nat.eq_zero_or_pos l.length with hz | hpos
  · exfalso
    have : l = [] := List.eq_nil_of_length_eq_zero hz
    rw [this] at h
    simp [BatchThread.progressEvents, BatchThread.progressAux] at h
  · have hle : (((BatchThread.batchesAux l.length l).take (i + 1)).map List.length).sum * 100 /
        l.length ≤ 100 := by
      have h1 : (((BatchThread.batchesAux l.length l).take (i + 1)).map List.length).sum * 100 ≤
          l.length * 100 := Nat.mul_le_mul_right 100 hsum
      calc (((BatchThread.batchesAux l.length l).take (i + 1)).map List.length).sum * 100 /
            l.length ≤ l.length * 100 / l.length := Nat.div_le_div_right h1
        _ = 100 := by rw [Nat.mul_comm]; exact Nat.mul_div_cancel 100 hpos
    simp only [Nat.zero_add]
    exact min_eq_right hle

/-- Witness for C4: the first progress emission for 25 input files,
obtained from the general theorem at i = 0. -/
theorem c4_batching_and_progress_witness :
    (BatchThread.progressEvents (List.range 25)).get ⟨0, by decide⟩ =
      (((BatchThread.batches (List.range 25)).take 1).map List.length).sum * 100 /
        (List.range 25).length :=
  (c4_batching_and_progress (List.range 25)).2.2.2.2.1 0 (by decide)

theorem firstIdx_eq_none (c : Char) : ∀ l : List Char, firstIdx c l = none ↔ c ∉ l
  | [] => by simp [firstIdx]
  | x :: rest => by
    by_cases hx : x = c
    · simp [firstIdx, hx]
    · simp only [firstIdx, if_neg hx, List.mem_cons]
      rw [Option.map_eq_none', firstIdx_eq_none c rest]
      constructor
      · rintro h (rfl | hc)
        · exact hx rfl
        · exact h hc
      · intro h hc
        exact h (Or.inr hc)

theorem firstIdx_eq_some (c : Char) : ∀ (l : List Char) (i : Nat),
    firstIdx c l = some i ↔ (l[i]? = some c ∧ ∀ j, j < i → l[j]? ≠ some c)
  | [], i => by simp [firstIdx]
  | x :: rest, i => by
    by_cases hx : x = c
    · subst hx
      simp only [firstIdx, if_pos rfl]
      constructor
      · intro h
        have h0 : i = 0 := (Option.some.inj h).symm
        subst h0
        exact ⟨by simp, by omega⟩
      · rintro ⟨h1, h2⟩
        rcases i with _ | i
        · rfl
        · exact absurd (by simp : (x :: rest)[0]? = some x) (h2 0 (by omega))
    · simp only [firstIdx, if_neg hx]
      rcases i with _ | i
      · simp only [List.getElem?_cons_zero]
        constructor
        · intro h
          rcases Option.map_eq_some'.1 h with ⟨i', _, hi'⟩
          omega
        · rintro ⟨h1, _⟩
          exact absurd (Option.some.inj h1) hx
      · simp only [List.getElem?_cons_succ]
        constructor
        · intro h
          rcases Option.map_eq_some'.1 h with ⟨i', hi', he⟩
          have hii : i' = i := by omega
          rw [hii] at hi'
          rcases (firstIdx_eq_some c rest i).1 hi' with ⟨h1, h2⟩
          refine ⟨h1, ?_⟩
          rintro (_ | j) hj
          · simp only [List.getElem?_cons_zero]
            intro he2
            exact hx (Option.some.inj he2)
          · simp only [List.getElem?_cons_succ]
            exact h2 j (by omega)
        · rintro ⟨h1, h2⟩
          have hrest : firstIdx c rest = some i := by
            rw [firstIdx_eq_some c rest i]
            refine ⟨h1, fun j hj => ?_⟩
            have := h2 (j + 1) (by omega)
            simpa using this
          simp [hrest]

theorem rfindIdx_eq_none (c : Char) : ∀ l : List Char, rfindIdx c l = none ↔ c ∉ l
  | [] => by simp [rfindIdx]
  | x :: rest => by
    simp only [rfindIdx, List.mem_cons]
    rcases hr : rfindIdx c rest with _ | i
    · have hnm := (rfindIdx_eq_none c rest).1 hr
      by_cases hx : x = c
      · simp [hx]
      · show (if x = c then some 0 else none) = none ↔ _
        rw [if_neg hx]
        constructor
        · rintro _ (rfl | hc)
          · exact hx rfl
          · exact hnm hc
        · intro _
          rfl
    · have hmem : c ∈ rest := by
        by_contra hmem
        rw [← rfindIdx_eq_none c rest] at hmem
        rw [hmem] at hr
        exact Option.noConfusion hr
      simp [hmem]

theorem rfindIdx_eq_some (c : Char) : ∀ (l : List Char) (i : Nat),
    rfindIdx c l = some i ↔ (l[i]? = some c ∧ ∀ j, i < j → l[j]? ≠ some c)
  | [], i => by simp [rfindIdx]
  | x :: rest, i => by
    simp only [rfindIdx]
    rcases hr : rfindIdx c rest with _ | i'
    · have hnm : c ∉ rest := (rfindIdx_eq_none c rest).1 hr
      have hnone : ∀ k : Nat, rest[k]? ≠ some c := by
        intro k hk
        exact hnm (List.mem_iff_getElem?.2 ⟨k, hk⟩)
      by_cases hx : x = c
      · subst hx
        simp only [if_pos rfl]
        constructor
        · intro h
          have h0 : i = 0 := (Option.some.inj h).symm
          subst h0
          refine ⟨by simp, ?_⟩
          rintro (_ | j) hj
          · omega
          · simp only [List.getElem?_cons_succ]
            exact hnone j
        · rintro ⟨h1, _⟩
          rcases i with _ | i
          · rfl
          · simp only [List.getElem?_cons_succ] at h1
            exact absurd h1 (hnone i)
      · simp only [if_neg hx]
        constructor
        · intro h
          exact Option.noConfusion h
        · rintro ⟨h1, _⟩
          rcases i with _ | i
          · simp only [List.getElem?_cons_zero] at h1
            exact absurd (Option.some.inj h1) hx
          · simp only [List.getElem?_cons_succ] at h1
            exact absurd h1 (hnone i)
    · rcases (rfindIdx_eq_some c rest i').1 hr with ⟨h1, h2⟩
      constructor
      · intro h
        have hii : i = i' + 1 := (Option.some.inj h).symm
        subst hii
        refine ⟨by simpa using h1, ?_⟩
        rintro (_ | j) hj
        · omega
        · simp only [List.getElem?_cons_succ]
          exact h2 j (by omega)
      · rintro ⟨hg1, hg2⟩
        rcases i with _ | i
        · exfalso
          refine hg2 (i' + 1) (by omega) ?_
          simpa using h1
        · simp only [List.getElem?_cons_succ] at hg1
          have hfound : rfindIdx c rest = some i := by
            rw [rfindIdx_eq_some c rest i]
            refine ⟨hg1, fun j hj => ?_⟩
            have := hg2 (j + 1) (by omega)
            simpa using this
          rw [hr] at hfound
          rw [Option.some.inj hfound]

theorem parse_response_eq {J : Type} (jsonParse : String → Option J) (raw : String)
    (s e : Nat) (hf : firstIdx lbrace raw.data = some s)
    (hr : rfindIdx rbrace raw.data = some e) :
    AIClassifier.parse_response jsonParse raw =
      match jsonParse ⟨(raw.data.drop s).take (e + 1 - s)⟩ with
      | some j => Except.ok j
      | none => Except.error ⟨"AI响应格式错误", raw⟩ := by
  unfold AIClassifier.parse_response
  rw [hf, hr]

/-- C5: response parsing finds the first opening brace and the last
closing brace (characterized semantically), hands exactly the enclosed
substring to the JSON parser and returns its result unchanged; when a
brace is missing or the substring does not parse, the stage fails with
a format error carrying the raw text — never a partial or repaired
result. -/
theorem c5_response_parse_contract {J : Type} (jsonParse : String → Option J) (raw : String) :
    (∀ s, firstIdx lbrace raw.data = some s ↔
      (raw.data[s]? = some lbrace ∧ ∀ j, j < s → raw.data[j]? ≠ some lbrace)) ∧
    (∀ e, rfindIdx rbrace raw.data = some e ↔
      (raw.data[e]? = some rbrace ∧ ∀ j, e < j → raw.data[j]? ≠ some rbrace)) ∧
    (∀ j, AIClassifier.parse_response jsonParse raw = Except.ok j →
      ∃ s e, firstIdx lbrace raw.data = some s ∧ rfindIdx rbrace raw.data = some e ∧
        jsonParse ⟨(raw.data.drop s).take (e + 1 - s)⟩ = some j) ∧
    ((lbrace ∉ raw.data ∨ rbrace ∉ raw.data) →
      AIClassifier.parse_response jsonParse raw = Except.error ⟨"AI响应格式错误", raw⟩) ∧
    (∀ s e, firstIdx lbrace raw.data = some s → rfindIdx rbrace raw.data = some e →
      jsonParse ⟨(raw.data.drop s).take (e + 1 - s)⟩ = none →
      AIClassifier.parse_response jsonParse raw = Except.error ⟨"AI响应格式错误", raw⟩) := by
  refine ⟨fun s => firstIdx_eq_some lbrace raw.data s,
    fun e => rfindIdx_eq_some rbrace raw.data e, ?_, ?_, ?_⟩
  · intro j h
    rcases hf : firstIdx lbrace raw.data with _ | s
    · exfalso
      unfold AIClassifier.parse_response at h
      rcases hr : rfindIdx rbrace raw.data with _ | e <;> rw [hf, hr] at h <;>
        exact Except.noConfusion h
    · rcases hr : rfindIdx rbrace raw.data with _ | e
      · exfalso
        unfold AIClassifier.parse_response at h
        rw [hf, hr] at h
        exact Except.noConfusion h
      · rw [parse_response_eq jsonParse raw s e hf hr] at h
        rcases hp : jsonParse ⟨(raw.data.drop s).take (e + 1 - s)⟩ with _ | j'
        · rw [hp] at h
          exact Except.noConfusion h
        · rw [hp] at h
          refine ⟨s, e, rfl, rfl, ?_⟩
          rw [hp]
          exact congrArg some (Except.ok.inj h)
  · intro hmiss
    unfold AIClassifier.parse_response
    rcases hf : firstIdx lbrace raw.data with _ | s
    · rfl
    · rcases hr : rfindIdx rbrace raw.data with _ | e
      · rfl
      · exfalso
        rcases hmiss with hmiss | hmiss
        · rw [← firstIdx_eq_none lbrace raw.data] at hmiss
          rw [hmiss] at hf
          exact Option.noConfusion hf
        · rw [← rfindIdx_eq_none rbrace raw.data] at hmiss
          rw [hmiss] at hr
          exact Option.noConfusion hr
  · intro s e hf hr hp
    rw [parse_response_eq jsonParse raw s e hf hr, hp]

/-- Witness for C5 at a concrete raw response whose braces enclose a
substring accepted by a concrete parser oracle. -/
theorem c5_response_parse_contract_witness :
    ∃ s e, firstIdx lbrace "ab\x7bok\x7dcd".data = some s ∧
      rfindIdx rbrace "ab\x7bok\x7dcd".data = some e ∧
      (fun t => if t = "\x7bok\x7d" then some 7 else none)
        (⟨("ab\x7bok\x7dcd".data.drop s).take (e + 1 - s)⟩ : String) = some 7 :=
  (c5_response_parse_contract (fun t => if t = "\x7bok\x7d" then some 7 else none)
    "ab\x7bok\x7dcd").2.2.1 7 (by rfl)

/-- C2: for every reason text, the computed confidence equals the spec's
heuristic (base 0.5, +0.2 for length over 50, +0.1 for causal markers,
+0.1 for characteristic/type references, +0.1 for certainty markers,
clamped to [0, 1]), and in particular always lies in [0, 1]. -/
theorem c2_confidence_heuristic (reason : String) :
    AIClassifier.calculate_confidence reason = AIClassifier.spec_confidence reason ∧
    0 ≤ AIClassifier.calculate_confidence reason ∧
    AIClassifier.calculate_confidence reason ≤ 1 := by
  unfold AIClassifier.calculate_confidence AIClassifier.spec_confidence
  by_cases h : reason.data = []
  · rw [h]
    norm_num [containsSeq]
  · simp only [ne_eq, h, not_false_eq_true, if_true]
    refine ⟨?_, ?_, ?_⟩ <;> split_ifs <;> norm_num

theorem extract_preview_some (full : List Char) (m : Nat) :
    AIClassifier.extract_content_preview (some full) m =
      if (full.take m).length = m then
        match rfindIdx ' ' (full.take m) with
        | some i => some ((full.take m).take i ++ AIClassifier.ellipsis)
        | none => none
      else some (full.take m) := rfl

theorem rfindIdx_replicate_append_space :
    ∀ n, rfindIdx ' ' (List.replicate n 'a' ++ [' ']) = some n
  | 0 => rfl
  | n + 1 => by
    rw [List.replicate_succ, List.cons_append]
    show (match rfindIdx ' ' (List.replicate n 'a' ++ [' ']) with
      | some i => some (i + 1)
      | none => if 'a' = ' ' then some 0 else none) = some (n + 1)
    rw [rfindIdx_replicate_append_space n]

/-- C9 counterexample: a full 1000-character read whose last space sits
at index 999 produces a preview of 1002 characters — more than the
claimed 1000-character bound. -/
theorem c9_preview_bound_counterexample :
    AIClassifier.extract_content_preview (some (List.replicate 999 'a' ++ [' '])) 1000 =
      some (List.replicate 999 'a' ++ AIClassifier.ellipsis) ∧
    1000 < (List.replicate 999 'a' ++ AIClassifier.ellipsis).length := by
  have hlen : (List.replicate 999 'a' ++ [' ']).length = 1000 := by
    rw [List.length_append, List.length_replicate]
    rfl
  have htake : (List.replicate 999 'a' ++ [' ']).take 1000 = List.replicate 999 'a' ++ [' '] :=
    List.take_of_length_le (by rw [hlen])
  have htake2 : (List.replicate 999 'a' ++ [' ']).take 999 = List.replicate 999 'a' := by
    have h0 := List.take_left (List.replicate 999 'a') ([' '] : List Char)
    rw [List.length_replicate] at h0
    exact h0
  constructor
  · rw [extract_preview_some, htake, if_pos hlen, rfindIdx_replicate_append_space 999]
    show some ((List.replicate 999 'a' ++ [' ']).take 999 ++ AIClassifier.ellipsis) = _
    rw [htake2]
  · rw [List.length_append, List.length_replicate]
    norm_num [AIClassifier.ellipsis]

/-- C9 (amended): extraction returns no preview on an open or decode
failure; a produced preview has at most maxLength + 2 characters (for
the 1000-character buffer: 1002, namely up to 999 characters before the
last space plus the 3-character ellipsis); in the full-buffer case the
preview is the content strictly before the last space of the buffer —
i.e. it is cut at a whitespace boundary — followed by the ellipsis
marker; and a full buffer without a space yields no preview. -/
theorem c9_preview_truncation (full : List Char) (m : Nat) (pv : List Char) :
    AIClassifier.extract_content_preview none m = none ∧
    (AIClassifier.extract_content_preview (some full) m = some pv →
      pv.length ≤ m + 2 ∧
      ((full.take m).length = m →
        ∃ i, rfindIdx ' ' (full.take m) = some i ∧
          (full.take m)[i]? = some ' ' ∧
          (∀ j, i < j → (full.take m)[j]? ≠ some ' ') ∧
          pv = (full.take m).take i ++ AIClassifier.ellipsis)) ∧
    ((full.take m).length = m → rfindIdx ' ' (full.take m) = none →
      AIClassifier.extract_content_preview (some full) m = none) := by
  refine ⟨rfl, ?_, ?_⟩
  · intro h
    rw [extract_preview_some] at h
    by_cases hfull : (full.take m).length = m
    · rw [if_pos hfull] at h
      rcases hrf : rfindIdx ' ' (full.take m) with _ | i
      · rw [hrf] at h
        exact Option.noConfusion h
      · rw [hrf] at h
        have hpv := (Option.some.inj h).symm
        rcases (rfindIdx_eq_some ' ' (full.take m) i).1 hrf with ⟨h1, h2⟩
        have hi : i < m := by
          have := List.getElem?_eq_some.1 h1
          rcases this with ⟨hlt, _⟩
          omega
        constructor
        · rw [hpv, List.length_append, List.length_take]
          have hdots : AIClassifier.ellipsis.length = 3 := rfl
          omega
        · intro _
          exact ⟨i, rfl, h1, h2, hpv⟩
    · rw [if_neg hfull] at h
      have hpv := (Option.some.inj h).symm
      constructor
      · rw [hpv]
        have : (full.take m).length ≤ m := by simp [List.length_take]
        omega
      · intro hc
        exact absurd hc hfull
  · intro hfull hrf
    rw [extract_preview_some, if_pos hfull, hrf]

/-- Witness for C9 at a three-character read that does not fill the
1000-character buffer: the preview is the content itself and obeys the
amended 1002-character bound. -/
theorem c9_preview_truncation_witness :
    AIClassifier.extract_content_preview (some ['a', ' ', 'b']) 1000 = some ['a', ' ', 'b'] ∧
    (['a', ' ', 'b'] : List Char).length ≤ 1000 + 2 :=
  ⟨rfl, ((c9_preview_truncation ['a', ' ', 'b'] 1000 ['a', ' ', 'b']).2.1 rfl).1⟩

/-- C10: a readable text file with at least 1000 characters whose first
1000 characters contain no space gets no preview at all: the truncation
step's rindex raises, the failure is silently absorbed into None, and
the enhanced record carries no content preview field. -/
theorem c10_no_space_full_buffer_no_preview (full : List Char)
    (hlen : 1000 ≤ full.length) (hns : ' ' ∉ full.take 1000) :
    AIClassifier.extract_content_preview (some full) 1000 = none ∧
    AIClassifier.enhance_preview_field true (some full) = none := by
  have ht : (full.take 1000).length = 1000 := by
    simp only [List.length_take]
    omega
  have hrf : rfindIdx ' ' (full.take 1000) = none := (rfindIdx_eq_none ' ' _).2 hns
  have hext : AIClassifier.extract_content_preview (some full) 1000 = none := by
    rw [extract_preview_some, if_pos ht, hrf]
  refine ⟨hext, ?_⟩
  unfold AIClassifier.enhance_preview_field
  rw [if_pos rfl, hext]

/-- Witness for C10 at a 1000-character space-free file. -/
theorem c10_no_space_full_buffer_no_preview_witness :
    AIClassifier.extract_content_preview (some (List.replicate 1000 'a')) 1000 = none ∧
    AIClassifier.enhance_preview_field true (some (List.replicate 1000 'a')) = none :=
  c10_no_space_full_buffer_no_preview (List.replicate 1000 'a')
    (by rw [List.length_replicate])
    (by
      rw [List.take_replicate]
      intro hm
      have h := List.eq_of_mem_replicate hm
      exact absurd h (by decide))

theorem insertA_map_fst {β : Type} (k : String) (v : β) :
    ∀ l : List (String × β), k ∈ l.map Prod.fst →
      (insertA k v l).map Prod.fst = l.map Prod.fst
  | [], h => by simp at h
  | (k', v') :: rest, h => by
    by_cases hk : k' = k
    · simp [insertA, hk]
    · have hmem : k ∈ rest.map Prod.fst := by
        simp only [List.map_cons, List.mem_cons] at h
        rcases h with h | h
        · exact absurd h.symm hk
        · exact h
      simp only [insertA, if_neg hk, List.map_cons]
      rw [insertA_map_fst k v rest hmem]

theorem lookupA_insertA_self {β : Type} (k : String) (v : β) :
    ∀ l : List (String × β), lookupA k (insertA k v l) = some v
  | [] => by simp [insertA, lookupA]
  | (k', v') :: rest => by
    by_cases hk : k' = k
    · simp [insertA, hk, lookupA]
    · simp only [insertA, if_neg hk, lookupA]
      exact lookupA_insertA_self k v rest

theorem lookupA_insertA_ne {β : Type} (k : String) (v : β) (q : String) (hq : q ≠ k) :
    ∀ l : List (String × β), lookupA q (insertA k v l) = lookupA q l
  | [] => by
    simp only [insertA, lookupA]
    rw [if_neg (fun h => hq h.symm)]
  | (k', v') :: rest => by
    by_cases hk : k' = k
    · subst hk
      simp only [insertA, if_pos rfl, lookupA]
      rw [if_neg (fun h => hq h.symm), if_neg (fun h => hq h.symm)]
    · simp only [insertA, if_neg hk, lookupA]
      by_cases hq' : k' = q
      · rw [if_pos hq', if_pos hq']
      · rw [if_neg hq', if_neg hq']
        exact lookupA_insertA_ne k v q hq rest

theorem lookupA_some_mem_fst {β : Type} (k : String) (r : β) :
    ∀ l : List (String × β), lookupA k l = some r → k ∈ l.map Prod.fst
  | [], h => by simp [lookupA] at h
  | (k', v') :: rest, h => by
    by_cases hk : k' = k
    · simp [hk]
    · simp only [lookupA, if_neg hk] at h
      simp only [List.map_cons, List.mem_cons]
      exact Or.inr (lookupA_some_mem_fst k r rest h)

theorem processOne_map_fst (outcome : String → FileOutcome)
    (results : List (String × PResult)) (p : String) :
    (ClassificationThread.processOne outcome results p).map Prod.fst =
      results.map Prod.fst := by
  unfold ClassificationThread.processOne
  rcases hl : lookupA p results with _ | r
  · rfl
  · have hm := lookupA_some_mem_fst p r results hl
    rcases outcome p with _ | _ | msg
    · rfl
    · exact insertA_map_fst p _ results hm
    · exact insertA_map_fst p _ results hm

theorem processOne_lookup_ne (outcome : String → FileOutcome)
    (results : List (String × PResult)) (p q : String) (hq : q ≠ p) :
    lookupA q (ClassificationThread.processOne outcome results p) = lookupA q results := by
  unfold ClassificationThread.processOne
  rcases hl : lookupA p results with _ | r
  · rfl
  · rcases outcome p with _ | _ | msg
    · rfl
    · exact lookupA_insertA_ne p _ q hq results
    · exact lookupA_insertA_ne p _ q hq results

theorem processOne_raised (outcome : String → FileOutcome)
    (results : List (String × PResult)) (p : String) (msg : String)
    (ho : outcome p = FileOutcome.raised msg) (hin : lookupA p results ≠ none) :
    lookupA p (ClassificationThread.processOne outcome results p) =
      some (ClassificationThread.errorResult msg) := by
  unfold ClassificationThread.processOne
  rcases hl : lookupA p results with _ | r
  · exact absurd hl hin
  · rw [ho]
    exact lookupA_insertA_self p _ results

theorem foldl_processOne_map_fst (outcome : String → FileOutcome) :
    ∀ (files : List String) (results : List (String × PResult)),
      (files.foldl (ClassificationThread.processOne outcome) results).map Prod.fst =
        results.map Prod.fst
  | [], results => rfl
  | x :: rest, results => by
    simp only [List.foldl_cons]
    rw [foldl_processOne_map_fst outcome rest _, processOne_map_fst]

theorem foldl_processOne_lookup_notmem (outcome : String → FileOutcome) (q : String) :
    ∀ (files : List String) (results : List (String × PResult)), q ∉ files →
      lookupA q (files.foldl (ClassificationThread.processOne outcome) results) =
        lookupA q results
  | [], results, _ => rfl
  | x :: rest, results, hq => by
    simp only [List.foldl_cons]
    rw [foldl_processOne_lookup_notmem outcome q rest _ (fun h => hq (by simp [h]))]
    exact processOne_lookup_ne outcome results x q (fun h => hq (by simp [h]))

theorem foldl_processOne_raised (outcome : String → FileOutcome) (p msg : String)
    (ho : outcome p = FileOutcome.raised msg) :
    ∀ (files : List String) (results : List (String × PResult)), files.Nodup →
      p ∈ files → lookupA p results ≠ none →
      lookupA p (files.foldl (ClassificationThread.processOne outcome) results) =
        some (ClassificationThread.errorResult msg)
  | [], results, _, hp, _ => by simp at hp
  | x :: rest, results, hnd, hp, hin => by
    simp only [List.foldl_cons]
    rcases List.mem_cons.1 hp with rfl | hp'
    · have hstep := processOne_raised outcome results p msg ho hin
      rw [foldl_processOne_lookup_notmem outcome p rest _ (List.nodup_cons.1 hnd).1]
      exact hstep
    · have hx : p ≠ x := by
        rintro rfl
        exact (List.nodup_cons.1 hnd).1 hp'
      have hne := processOne_lookup_ne outcome results x p hx
      exact foldl_processOne_raised outcome p msg ho rest _
        (List.nodup_cons.1 hnd).2 hp' (by rw [hne]; exact hin)

/-- C6: during post-classification per-file handling, a file whose
processing raises an exception has its entry in the aggregate replaced
by the synthesized processing-error result with confidence 0.0; the
remaining files are still processed (entries of files outside the run
are untouched, and the aggregate keeps exactly its original keys), and
the terminal success event fires with the full aggregate — no single
file's failure aborts the batch or the run. -/
theorem c6_per_file_error_absorbed (outcome : String → FileOutcome)
    (results : List (String × PResult)) (files : List String) (p msg : String)
    (hnd : files.Nodup) (hp : p ∈ files) (ho : outcome p = FileOutcome.raised msg)
    (hin : lookupA p results ≠ none) :
    ∃ final, ClassificationThread.run_post outcome results files = Except.ok final ∧
      final.map Prod.fst = results.map Prod.fst ∧
      lookupA p final = some (ClassificationThread.errorResult msg) ∧
      (ClassificationThread.errorResult msg).confidence = 0 ∧
      (∀ q, q ∉ files → lookupA q final = lookupA q results) := by
  refine ⟨files.foldl (ClassificationThread.processOne outcome) results, rfl,
    foldl_processOne_map_fst outcome files results,
    foldl_processOne_raised outcome p msg ho files results hnd hp hin, rfl, ?_⟩
  intro q hq
  exact foldl_processOne_lookup_notmem outcome q files results hq

/-- Witness for C6: a two-file aggregate where the first file's handling
raises; its entry becomes the synthesized error result and the second
file's entry survives. -/
theorem c6_per_file_error_absorbed_witness :
    ∃ final, ClassificationThread.run_post
        (fun q => if q = "/a" then FileOutcome.raised "boom" else FileOutcome.moved)
        [("/a", ⟨"文档", "r1", 1, none⟩), ("/b", ⟨"文档", "r2", 1, none⟩)]
        ["/a", "/b"] = Except.ok final ∧
      lookupA "/a" final = some (ClassificationThread.errorResult "boom") := by
  obtain ⟨final, h1, _, h3, _, _⟩ := c6_per_file_error_absorbed
    (fun q => if q = "/a" then FileOutcome.raised "boom" else FileOutcome.moved)
    [("/a", ⟨"文档", "r1", 1, none⟩), ("/b", ⟨"文档", "r2", 1, none⟩)]
    ["/a", "/b"] "/a" "boom" (by decide) (by decide) (by decide) (by decide)
  exact ⟨final, h1, h3⟩

open CategoryStorage

theorem findCat_some (name : String) :
    ∀ (l : List CatRow) (r : CatRow), findCat name l = some r → r ∈ l ∧ r.name = name
  | [], r, h => by simp [findCat] at h
  | x :: rest, r, h => by
    by_cases hx : x.name = name
    · simp only [findCat, if_pos hx] at h
      rw [← Option.some.inj h]
      exact ⟨by simp, hx⟩
    · simp only [findCat, if_neg hx] at h
      have := findCat_some name rest r h
      exact ⟨by simp [this.1], this.2⟩

theorem findCat_none (name : String) :
    ∀ l : List CatRow, findCat name l = none → ∀ r ∈ l, r.name ≠ name
  | [], _, r, hr => by simp at hr
  | x :: rest, h, r, hr => by
    by_cases hx : x.name = name
    · simp [findCat, hx] at h
    · simp only [findCat, if_neg hx] at h
      rcases List.mem_cons.1 hr with rfl | hr'
      · exact hx
      · exact findCat_none name rest h r hr'

theorem findCat_append_none (name : String) (l₂ : List CatRow) :
    ∀ l₁ : List CatRow, findCat name l₁ = none →
      findCat name (l₁ ++ l₂) = findCat name l₂
  | [], _ => rfl
  | x :: rest, h => by
    by_cases hx : x.name = name
    · simp [findCat, hx] at h
    · simp only [findCat, if_neg hx] at h
      simp only [List.cons_append, findCat, if_neg hx]
      exact findCat_append_none name l₂ rest h

theorem findCatById_some (cid : Nat) :
    ∀ (l : List CatRow) (c : CatRow), findCatById cid l = some c → c ∈ l ∧ c.rowId = cid
  | [], c, h => by simp [findCatById] at h
  | x :: rest, c, h => by
    by_cases hx : x.rowId = cid
    · simp only [findCatById, if_pos hx] at h
      rw [← Option.some.inj h]
      exact ⟨by simp, hx⟩
    · simp only [findCatById, if_neg hx] at h
      have := findCatById_some cid rest c h
      exact ⟨by simp [this.1], this.2⟩

theorem findCatById_of_mem_nodup (r : CatRow) :
    ∀ l : List CatRow, r ∈ l → (l.map (fun x => x.rowId)).Nodup →
      findCatById r.rowId l = some r
  | [], hr, _ => by simp at hr
  | x :: rest, hr, hnd => by
    rcases List.mem_cons.1 hr with rfl | hr'
    · simp [findCatById]
    · have hx : x.rowId ≠ r.rowId := by
        intro he
        have : r.rowId ∈ rest.map (fun x => x.rowId) := List.mem_map.2 ⟨r, hr', rfl⟩
        rw [← he] at this
        exact (List.nodup_cons.1 (by simpa using hnd)).1 this
      simp only [findCatById, if_neg hx]
      exact findCatById_of_mem_nodup r rest hr' (List.nodup_cons.1 (by simpa using hnd)).2

theorem catrow_name_unique :
    ∀ l : List CatRow, (l.map (fun r => r.name)).Nodup →
      ∀ r1 ∈ l, ∀ r2 ∈ l, r1.name = r2.name → r1 = r2
  | [], _, r1, h1, _, _, _ => by simp at h1
  | x :: rest, hnd, r1, h1, r2, h2, he => by
    have hx : x.name ∉ rest.map (fun r => r.name) :=
      (List.nodup_cons.1 (by simpa using hnd)).1
    rcases List.mem_cons.1 h1 with h1' | h1' <;> rcases List.mem_cons.1 h2 with h2' | h2'
    · rw [h1', h2']
    · subst h1'
      exact absurd (List.mem_map.2 ⟨r2, h2', he.symm⟩) hx
    · subst h2'
      exact absurd (List.mem_map.2 ⟨r1, h1', he⟩) hx
    · exact catrow_name_unique rest (List.nodup_cons.1 (by simpa using hnd)).2 r1 h1' r2 h2' he

theorem add_category_spec (db : DB) (name : String) (hwf : WF db) :
    ∃ cid,
      catIdOf (add_category db name).1 name = some cid ∧
      (⟨cid, name⟩ : CatRow) ∈ (add_category db name).1.categories ∧
      WF (add_category db name).1 ∧
      (add_category db name).1.file_categories = db.file_categories ∧
      (add_category db name).1.history = db.history ∧
      (add_category db name).1.next_fc = db.next_fc ∧
      (add_category db name).1.next_h = db.next_h := by
  rcases hfc : findCat name db.categories with _ | r
  · have heq : (add_category db name).1 =
        ⟨db.categories ++ [⟨db.next_cat, name⟩], db.file_categories, db.history,
          db.next_cat + 1, db.next_fc, db.next_h⟩ := by
      unfold add_category
      rw [hfc]
    refine ⟨db.next_cat, ?_, ?_, ?_, by rw [heq], by rw [heq], by rw [heq], by rw [heq]⟩
    · rw [heq]
      unfold catIdOf
      show (findCat name (db.categories ++ [⟨db.next_cat, name⟩])).map (fun r => r.rowId) =
        some db.next_cat
      rw [findCat_append_none name _ db.categories hfc]
      simp [findCat]
    · rw [heq]
      show _ ∈ db.categories ++ [(⟨db.next_cat, name⟩ : CatRow)]
      simp
    · rw [heq]
      obtain ⟨hn, hi, hb⟩ := hwf
      refine ⟨?_, ?_, ?_⟩
      · show ((db.categories ++ [(⟨db.next_cat, name⟩ : CatRow)]).map (fun r => r.name)).Nodup
        rw [List.map_append, List.nodup_append]
        refine ⟨hn, by simp, ?_⟩
        intro a ha hb2
        simp only [List.map_cons, List.map_nil, List.mem_singleton] at hb2
        rcases List.mem_map.1 ha with ⟨r, hr, hrn⟩
        exact findCat_none name db.categories hfc r hr (by rw [hrn, hb2])
      · show ((db.categories ++ [(⟨db.next_cat, name⟩ : CatRow)]).map (fun r => r.rowId)).Nodup
        rw [List.map_append, List.nodup_append]
        refine ⟨hi, by simp, ?_⟩
        intro a ha hb2
        simp only [List.map_cons, List.map_nil, List.mem_singleton] at hb2
        rcases List.mem_map.1 ha with ⟨r, hr, hrn⟩
        have := hb r hr
        omega
      · intro r hr
        rcases List.mem_append.1 hr with hr' | hr'
        · have := hb r hr'
          show r.rowId < db.next_cat + 1
          omega
        · simp only [List.mem_singleton] at hr'
          rw [hr']
          show db.next_cat < db.next_cat + 1
          omega
  · have heq : (add_category db name).1 = db := by
      unfold add_category
      rw [hfc]
    obtain ⟨hmem, hname⟩ := findCat_some name db.categories r hfc
    refine ⟨r.rowId, ?_, ?_, by rw [heq]; exact hwf, by rw [heq], by rw [heq],
      by rw [heq], by rw [heq]⟩
    · rw [heq]
      unfold catIdOf
      rw [hfc]
      rfl
    · rw [heq]
      show (⟨r.rowId, name⟩ : CatRow) ∈ db.categories
      have hr : (⟨r.rowId, name⟩ : CatRow) = r := by
        rw [← hname]
      rw [hr]
      exact hmem

theorem add_file_category_spec (db : DB) (p c : String) (conf : ℚ) (hwf : WF db) :
    ∃ cid,
      catIdOf (add_category db c).1 c = some cid ∧
      (⟨cid, c⟩ : CatRow) ∈ (add_category db c).1.categories ∧
      WF (add_category db c).1 ∧
      add_file_category db p c conf =
        ⟨(add_category db c).1.categories,
         ((add_category db c).1.file_categories.filter
           (fun r => !decide (r.file_path = p ∧ r.category_id = cid))) ++
           [⟨(add_category db c).1.next_fc, p, cid, conf⟩],
         (add_category db c).1.history ++ [⟨(add_category db c).1.next_h, p, cid, "add"⟩],
         (add_category db c).1.next_cat,
         (add_category db c).1.next_fc + 1,
         (add_category db c).1.next_h + 1⟩ := by
  obtain ⟨cid, hcat, hmem, hwf1, _, _, _, _⟩ := add_category_spec db c hwf
  refine ⟨cid, hcat, hmem, hwf1, ?_⟩
  simp only [add_file_category]
  rw [hcat]

theorem assign_get_spec (db : DB) (p c : String) (conf : ℚ) (hwf : WF db) :
    WF (add_file_category db p c conf) ∧
    (c, conf) ∈ get_file_categories (add_file_category db p c conf) p ∧
    List.Sorted byConfDesc (get_file_categories (add_file_category db p c conf) p) ∧
    (get_file_categories (add_file_category db p c conf) p).countP
      (fun x => decide (x.1 = c)) = 1 ∧
    (∃ cid, catIdOf (add_file_category db p c conf) c = some cid ∧
      (add_file_category db p c conf).file_categories.countP
        (fun r => decide (r.file_path = p ∧ r.category_id = cid)) = 1) := by
  obtain ⟨cid, hcat, hmem, hwf1, heq⟩ := add_file_category_spec db p c conf hwf
  obtain ⟨hn1, hi1, hb1⟩ := hwf1
  set db1 := (add_category db c).1 with hdb1
  set db2 := add_file_category db p c conf with hdb2
  set F : List FCRow := db1.file_categories.filter
      (fun r => !decide (r.file_path = p ∧ r.category_id = cid)) with hF
  set newRow : FCRow := ⟨db1.next_fc, p, cid, conf⟩ with hnew
  have hfc2 : db2.file_categories = F ++ [newRow] := by rw [heq]
  have hcats2 : db2.categories = db1.categories := by rw [heq]
  have hwf2 : WF db2 := by
    rw [heq]
    exact ⟨hn1, hi1, hb1⟩
  have hFmem : ∀ r ∈ F, ¬(r.file_path = p ∧ r.category_id = cid) := by
    intro r hr hcon
    have h2 := (List.mem_filter.1 hr).2
    simp only [Bool.not_eq_true', decide_eq_false_iff_not] at h2
    exact h2 hcon
  have hname_new : findCatById cid db1.categories = some ⟨cid, c⟩ :=
    findCatById_of_mem_nodup ⟨cid, c⟩ db1.categories hmem hi1
  have hjoin : db2.file_categories.filter (fun r => decide (r.file_path = p)) =
      F.filter (fun r => decide (r.file_path = p)) ++ [newRow] := by
    rw [hfc2, List.filter_append]
    congr 1
    rw [hnew]
    simp [List.filter]
  have hJ : (db2.file_categories.filter (fun r => decide (r.file_path = p))).filterMap
        (fun r => (findCatById r.category_id db2.categories).map
          (fun cr => (cr.name, r.confidence))) =
      (F.filter (fun r => decide (r.file_path = p))).filterMap
        (fun r => (findCatById r.category_id db1.categories).map
          (fun cr => (cr.name, r.confidence))) ++ [(c, conf)] := by
    rw [hjoin, hcats2, List.filterMap_append]
    congr 1
    rw [hnew]
    simp [List.filterMap, hname_new]
  have hget : get_file_categories db2 p =
      List.insertionSort byConfDesc
        ((F.filter (fun r => decide (r.file_path = p))).filterMap
          (fun r => (findCatById r.category_id db1.categories).map
            (fun cr => (cr.name, r.confidence))) ++ [(c, conf)]) := by
    unfold get_file_categories
    rw [hJ]
  have hJ0 : ((F.filter (fun r => decide (r.file_path = p))).filterMap
      (fun r => (findCatById r.category_id db1.categories).map
        (fun cr => (cr.name, r.confidence)))).countP (fun x => decide (x.1 = c)) = 0 := by
    rw [List.countP_eq_zero]
    intro a ha
    rcases List.mem_filterMap.1 ha with ⟨r, hr, hfr⟩
    rcases Option.map_eq_some'.1 hfr with ⟨cr, hcr, hcre⟩
    simp only [decide_eq_true_eq]
    intro hac
    obtain ⟨hcrmem, hcrid⟩ := findCatById_some r.category_id db1.categories cr hcr
    have hcrname : cr.name = c := by
      rw [← hcre] at hac
      exact hac
    have hceq : cr = ⟨cid, c⟩ :=
      catrow_name_unique db1.categories hn1 cr hcrmem ⟨cid, c⟩ hmem (by rw [hcrname])
    have hrcid : r.category_id = cid := by
      rw [← hcrid, hceq]
    have hrF : r ∈ F := (List.mem_filter.1 hr).1
    have hrp : r.file_path = p := by
      have := (List.mem_filter.1 hr).2
      simpa using this
    exact hFmem r hrF ⟨hrp, hrcid⟩
  refine ⟨hwf2, ?_, ?_, ?_, cid, ?_, ?_⟩
  · rw [hget]
    exact (List.perm_insertionSort byConfDesc _).mem_iff.2 (by simp)
  · rw [hget]
    exact List.sorted_insertionSort byConfDesc _
  · rw [hget, (List.perm_insertionSort byConfDesc _).countP_eq, List.countP_append, hJ0]
    simp
  · show (findCat c db2.categories).map (fun r => r.rowId) = some cid
    rw [hcats2]
    exact hcat
  · rw [hfc2, List.countP_append]
    have h0 : F.countP (fun r => decide (r.file_path = p ∧ r.category_id = cid)) = 0 := by
      rw [List.countP_eq_zero]
      intro r hr
      simpa using hFmem r hr
    rw [h0, hnew]
    simp

/-- C7: after assignFileCategory the file's category list contains the
assigned category with the written confidence, is ordered by descending
confidence, and holds exactly one entry for that category (and exactly
one underlying assignment row for the pair); repeating the assignment
with a different confidence leaves one entry carrying the last-written
confidence — an in-place update with no duplicate rows. -/
theorem c7_assign_upsert_last_write (db : DB) (p c : String) (conf conf' : ℚ)
    (hwf : WF db) :
    ((c, conf) ∈ get_file_categories (add_file_category db p c conf) p ∧
     List.Sorted byConfDesc (get_file_categories (add_file_category db p c conf) p) ∧
     (get_file_categories (add_file_category db p c conf) p).countP
       (fun x => decide (x.1 = c)) = 1 ∧
     (∃ cid, catIdOf (add_file_category db p c conf) c = some cid ∧
       (add_file_category db p c conf).file_categories.countP
         (fun r => decide (r.file_path = p ∧ r.category_id = cid)) = 1)) ∧
    ((c, conf') ∈
       get_file_categories (add_file_category (add_file_category db p c conf) p c conf') p ∧
     List.Sorted byConfDesc
       (get_file_categories (add_file_category (add_file_category db p c conf) p c conf') p) ∧
     (get_file_categories
         (add_file_category (add_file_category db p c conf) p c conf') p).countP
       (fun x => decide (x.1 = c)) = 1 ∧
     (∃ cid,
       catIdOf (add_file_category (add_file_category db p c conf) p c conf') c = some cid ∧
       (add_file_category (add_file_category db p c conf) p c conf').file_categories.countP
         (fun r => decide (r.file_path = p ∧ r.category_id = cid)) = 1)) := by
  obtain ⟨hwf1, h1, h2, h3, h4⟩ := assign_get_spec db p c conf hwf
  obtain ⟨_, h1', h2', h3', h4'⟩ :=
    assign_get_spec (add_file_category db p c conf) p c conf' hwf1
  exact ⟨⟨h1, h2, h3, h4⟩, h1', h2', h3', h4'⟩

/-- Witness for C7: two assignments of the same (file, category) pair
starting from the empty database; the list carries the second
confidence and exactly one entry for the category. -/
theorem c7_assign_upsert_last_write_witness :
    ("文档", (3 : ℚ)/4) ∈ get_file_categories
        (add_file_category (add_file_category emptyDB "/f" "文档" (1/2)) "/f" "文档" (3/4))
        "/f" ∧
    (get_file_categories
        (add_file_category (add_file_category emptyDB "/f" "文档" (1/2)) "/f" "文档" (3/4))
        "/f").countP (fun x => decide (x.1 = "文档")) = 1 := by
  obtain ⟨_, h⟩ := c7_assign_upsert_last_write emptyDB "/f" "文档" (1/2) (3/4) (by decide)
  exact ⟨h.1, h.2.2.1⟩

/-- C8 counterexample: with category 文档 existing but never assigned to
file /f, remove_file_category still appends a remove history row even
though no assignment row existed — contradicting the claim that for a
no-op removal attempt the history row is recorded only if the
assignment existed. -/
theorem c8_remove_history_counterexample :
    (add_category emptyDB "文档").1.file_categories = [] ∧
    ((remove_file_category (add_category emptyDB "文档").1 "/f" "文档").1.history.map
      (fun h => h.action)) = ["remove"] :=
  ⟨rfl, rfl⟩

/-- C8 (amended): when the category name exists, removeFileCategory
deletes every assignment row of the (file, category) pair, after which
listFilesForCategory no longer includes that file, returns true, and
appends a remove history row even when no assignment row existed; when
the category name does not exist it returns false and changes nothing,
appending no history row. -/
theorem c8_remove_behavior (db : DB) (p c : String) (hwf : WF db) :
    (catIdOf db c = none → remove_file_category db p c = (db, false)) ∧
    (∀ cid, catIdOf db c = some cid →
      (remove_file_category db p c).2 = true ∧
      (remove_file_category db p c).1.file_categories =
        db.file_categories.filter
          (fun r => !decide (r.file_path = p ∧ r.category_id = cid)) ∧
      p ∉ get_files_by_category (remove_file_category db p c).1 c ∧
      (remove_file_category db p c).1.history =
        db.history ++ [⟨db.next_h, p, cid, "remove"⟩] ∧
      WF (remove_file_category db p c).1) := by
  obtain ⟨hn, hi, hb⟩ := hwf
  constructor
  · intro hnone
    unfold remove_file_category
    rw [hnone]
  · intro cid hsome
    have heq : remove_file_category db p c =
        (⟨db.categories,
          db.file_categories.filter
            (fun r => !decide (r.file_path = p ∧ r.category_id = cid)),
          db.history ++ [⟨db.next_h, p, cid, "remove"⟩],
          db.next_cat, db.next_fc, db.next_h + 1⟩, true) := by
      unfold remove_file_category
      rw [hsome]
    refine ⟨by rw [heq], by rw [heq], ?_, by rw [heq], by rw [heq]; exact ⟨hn, hi, hb⟩⟩
    rw [heq]
    intro hp
    unfold get_files_by_category at hp
    have hp2 := (List.perm_insertionSort (α := String) (· ≤ ·) _).mem_iff.1 hp
    rcases List.mem_map.1 hp2 with ⟨r, hrmem, hrp⟩
    obtain ⟨hrF, hpred⟩ := List.mem_filter.1 hrmem
    rcases hcr : findCatById r.category_id db.categories with _ | cr
    · rw [hcr] at hpred
      exact Bool.noConfusion hpred
    · rw [hcr] at hpred
      have hcrname : cr.name = c := of_decide_eq_true hpred
      rcases Option.map_eq_some'.1 hsome with ⟨catRow, hfnd, hid⟩
      obtain ⟨hcatmem, hcatname⟩ := findCat_some c db.categories catRow hfnd
      obtain ⟨hcrmem, hcrid⟩ := findCatById_some r.category_id db.categories cr hcr
      have hceq : cr = catRow :=
        catrow_name_unique db.categories hn cr hcrmem catRow hcatmem
          (by rw [hcrname, hcatname])
      have hrcid : r.category_id = cid := by
        rw [← hcrid, hceq, hid]
      have hnotpair := (List.mem_filter.1 hrF).2
      simp only [Bool.not_eq_true', decide_eq_false_iff_not] at hnotpair
      exact hnotpair ⟨hrp, hrcid⟩

/-- Witness for C8 at a database holding category 文档 with no
assignments: the removal returns true and the file stays absent from
the category's file list. -/
theorem c8_remove_behavior_witness :
    (remove_file_category (add_category emptyDB "文档").1 "/f" "文档").2 = true ∧
    "/f" ∉ get_files_by_category
        (remove_file_category (add_category emptyDB "文档").1 "/f" "文档").1 "文档" := by
  have h := (c8_remove_behavior (add_category emptyDB "文档").1 "/f" "文档"
    (by decide)).2 1 (by rfl)
  exact ⟨h.1, h.2.2.1⟩

end PM
